import Mathlib

/-!
Verification of the POI side-detection and position-optimization pipeline
(`process_poi/side_detector.py`, `process_poi/POI_Optimizer.py`).

Numbers are modelled as real numbers (`ℝ`).  Python's float `%` with a
positive divisor is modelled by `pymod`, `math.atan2` by the argument of a
complex number, and Python exceptions (`TypeError` on `None` arithmetic,
`IndexError` on `[-1]` of an empty list, `KeyError` on a missing dict key,
`ValueError` of `min()` on an empty sequence) by `Except String`.
The f-string formatting of the `shared_with` column is abstracted to the
list of `(lat, lon)` pairs that the formatted string displays.
-/

/-- Python `x % y` on floats for `y > 0`: the result has the sign of the
divisor, i.e. `x - y * ⌊x / y⌋`. -/
noncomputable def pymod (x y : ℝ) : ℝ := x - y * ⌊x / y⌋

/-- `math.radians` -/
noncomputable def radians (x : ℝ) : ℝ := x * Real.pi / 180

/-- `math.degrees` -/
noncomputable def degrees (x : ℝ) : ℝ := x * 180 / Real.pi

/-- `math.atan2 y x`, the angle of the point `(x, y)`, modelled as the
argument of the complex number `x + y*I`. -/
noncomputable def atan2 (y x : ℝ) : ℝ := Complex.arg ⟨x, y⟩

/-- `POIProcessor.calculate_bearing` (`side_detector.py`). -/
noncomputable def calculate_bearing (lat1 lon1 lat2 lon2 : ℝ) : ℝ :=
  let delta_lon := radians (lon2 - lon1)
  let rlat1 := radians lat1
  let rlat2 := radians lat2
  let x := Real.sin delta_lon * Real.cos rlat2
  let y := Real.cos rlat1 * Real.sin rlat2 -
    Real.sin rlat1 * Real.cos rlat2 * Real.cos delta_lon
  let initial_bearing := atan2 x y
  pymod (degrees initial_bearing + 360) 360

/-- `POIProcessor.haversine_and_bearing` (`side_detector.py`): great-circle
distance (Earth radius 6371·1000 m) paired with the bearing. -/
noncomputable def haversine_and_bearing (lat1 lon1 lat2 lon2 : ℝ) : ℝ × ℝ :=
  let EARTH_RADIUS : ℝ := 6371 * 1000
  let dlat := radians (lat2 - lat1)
  let dlon := radians (lon2 - lon1)
  let rlat1 := radians lat1
  let rlat2 := radians lat2
  let a := Real.sin (dlat / 2) ^ 2 +
    Real.cos rlat1 * Real.cos rlat2 * Real.sin (dlon / 2) ^ 2
  let c := 2 * atan2 (Real.sqrt a) (Real.sqrt (1 - a))
  let distance := EARTH_RADIUS * c
  let y := Real.sin dlon * Real.cos rlat2
  let x := Real.cos rlat1 * Real.sin rlat2 -
    Real.sin rlat1 * Real.cos rlat2 * Real.cos dlon
  let bearing := pymod (degrees (atan2 y x) + 360) 360
  (distance, bearing)

/-- `POIProcessor.determine_side` (`side_detector.py`):
`delta = (poi_bearing - route_bearing + 360) % 360`, "Right" when
`0 <= delta <= 180`, else "Left". -/
noncomputable def determine_side (poi_bearing route_bearing : ℝ) : String :=
  let delta := pymod (poi_bearing - route_bearing + 360) 360
  if 0 ≤ delta ∧ delta ≤ 180 then "Right" else "Left"

/-- Python `str.lower()`, modelled character-wise (ASCII case folding of
`Char.toLower`). -/
def pyLower (s : String) : String := String.mk (s.data.map Char.toLower)

/-- A route coordinate (`result['coordinate']` with `lat`/`lon` keys). -/
structure Coordinate where
  lat : ℝ
  lon : ℝ

/-- One entry of `result['nearby']['result']`.  `name`, `location.lat` and
`location.lng` may be missing (`None`), which `dict.get` surfaces as `none`. -/
structure POIEntry where
  name : Option String
  loc_lat : Option ℝ
  loc_lng : Option ℝ
  types : List String

/-- One element of `self.results`: a route point and the nearby-search
payload attached to it (`result['nearby'].get('result', [])`). -/
structure RouteResult where
  coordinate : Coordinate
  nearby : List POIEntry

/-- The dedup identity key `(source_lat, source_lon, poi_lat, poi_lon, name)`. -/
abbrev RecordKey := ℝ × ℝ × ℝ × ℝ × Option String

/-- One row of `self.data_to_write`.  The `shared_with` column (Python: a
`"; "`-joined string of `f"{lat}, {lon}"` fragments, initially `None`) is
abstracted to the list of `(lat, lon)` pairs the string displays. -/
structure Row where
  source_lat : ℝ
  source_lon : ℝ
  name : Option String
  poi_lat : ℝ
  poi_lon : ℝ
  distance : ℝ
  bearing : ℝ
  side : String
  all_types : String
  shared_with : Option (List (ℝ × ℝ))

/-- A `(side, source_lat, source_lon)` tuple of a POI group. -/
abbrev GroupEntry := String × ℝ × ℝ

/-- `self.poi_groups`: a `defaultdict(list)` keyed by POI name, modelled as
an insertion-ordered association list. -/
abbrev POIGroups := List (Option String × List GroupEntry)

/-- Reading `poi_groups[name]`: the stored list, or `[]` for an absent key
(`defaultdict(list)` behaviour). -/
def lookupGroup : POIGroups → Option String → List GroupEntry
  | [], _ => []
  | (k, l) :: rest, nm => if k = nm then l else lookupGroup rest nm

/-- `self.poi_groups[name].append(entry)`: append to the existing list, or
create a new singleton entry at the end (dict insertion order). -/
def appendGroup : POIGroups → Option String → GroupEntry → POIGroups
  | [], nm, e => [(nm, [e])]
  | (k, l) :: rest, nm, e =>
      if k = nm then (k, l ++ [e]) :: rest
      else (k, l) :: appendGroup rest nm e

/-- The mutable state of `POIProcessor` during `process_pois`. -/
structure AggState where
  seen_records : List RecordKey
  data_to_write : List Row
  poi_groups : POIGroups

/-- `POIProcessor._calculate_segment_bearings`: one bearing per consecutive
pair of route points. -/
noncomputable def calculate_segment_bearings (results : List RouteResult) : List ℝ :=
  (results.zip results.tail).map fun p =>
    calculate_bearing p.1.coordinate.lat p.1.coordinate.lon
      p.2.coordinate.lat p.2.coordinate.lon

/-- `self.segment_bearings[i] if i < len(self.segment_bearings) else
self.segment_bearings[-1]`; `[-1]` on an empty list raises `IndexError`. -/
def currentBearing (segs : List ℝ) (i : ℕ) : Except String ℝ :=
  if h : i < segs.length then .ok (segs.get ⟨i, h⟩)
  else
    match segs.getLast? with
    | some b => .ok b
    | none => .error "list index out of range"

/-- The dedup key of a written row. -/
def recordKey (r : Row) : RecordKey :=
  (r.source_lat, r.source_lon, r.poi_lat, r.poi_lon, r.name)

/-- The body of the inner loop of `process_pois` for one nearby POI:
compute distance/bearing (a `TypeError` if a coordinate is `None`, as in
Python arithmetic on `None`), classify the side, drop exact duplicate keys,
otherwise append the row and the group entry. -/
noncomputable def processPoi (source_lat source_lon current_bearing : ℝ)
    (st : AggState) (poi : POIEntry) : Except String AggState :=
  match poi.loc_lat, poi.loc_lng with
  | some poi_lat, some poi_lon =>
      let db := haversine_and_bearing source_lat source_lon poi_lat poi_lon
      let side := determine_side db.2 current_bearing
      let record_key : RecordKey := (source_lat, source_lon, poi_lat, poi_lon, poi.name)
      if record_key ∈ st.seen_records then .ok st
      else .ok
        { seen_records := st.seen_records ++ [record_key]
          data_to_write := st.data_to_write ++
            [{ source_lat := source_lat, source_lon := source_lon,
               name := poi.name, poi_lat := poi_lat, poi_lon := poi_lon,
               distance := db.1, bearing := db.2, side := side,
               all_types := String.intercalate "," poi.types,
               shared_with := none }]
          poi_groups := appendGroup st.poi_groups poi.name (side, source_lat, source_lon) }
  | _, _ => .error "TypeError: unsupported operand type for NoneType"

/-- The inner loop of `process_pois` over the nearby POIs of one route point. -/
noncomputable def processNearby (source_lat source_lon current_bearing : ℝ) :
    AggState → List POIEntry → Except String AggState
  | st, [] => .ok st
  | st, poi :: rest => do
      let st' ← processPoi source_lat source_lon current_bearing st poi
      processNearby source_lat source_lon current_bearing st' rest

/-- The outer loop of `process_pois` over `enumerate(self.results)`. -/
noncomputable def processResults (segs : List ℝ) :
    ℕ → AggState → List RouteResult → Except String AggState
  | _, st, [] => .ok st
  | i, st, r :: rest => do
      let cb ← currentBearing segs i
      let st' ← processNearby r.coordinate.lat r.coordinate.lon cb st r.nearby
      processResults segs (i + 1) st' rest

/-- The `side_counts` accumulation of `_update_shared_details`:
`side_counts[side] += 1` raises `KeyError` for a side other than
"Left"/"Right".  Returns `(left, right)`. -/
def sideCounts : List GroupEntry → Except String (ℕ × ℕ)
  | [] => .ok (0, 0)
  | e :: rest => do
      let c ← sideCounts rest
      if e.1 = "Left" then .ok (c.1 + 1, c.2)
      else if e.1 = "Right" then .ok (c.1, c.2 + 1)
      else .error "KeyError"

/-- The body of `_update_shared_details` for one row: when the row's POI
group has more than one member, overwrite `side` with
`"Right" if side_counts["Right"] > side_counts["Left"] else "Left"`;
always overwrite `shared_with` with the group's source coordinates. -/
def updateRow (groups : POIGroups) (row : Row) : Except String Row := do
  let shared_sources := lookupGroup groups row.name
  let side' ←
    if 1 < shared_sources.length then do
      let c ← sideCounts shared_sources
      pure (if c.2 > c.1 then "Right" else "Left")
    else pure row.side
  pure { row with side := side',
                  shared_with := some (shared_sources.map fun e => (e.2.1, e.2.2)) }

/-- `POIProcessor._update_shared_details`: the loop over `self.data_to_write`. -/
def updateSharedDetails (groups : POIGroups) : List Row → Except String (List Row)
  | [] => .ok []
  | row :: rest => do
      let row' ← updateRow groups row
      let rest' ← updateSharedDetails groups rest
      .ok (row' :: rest')

/-- `POIProcessor.process_pois` followed by the `_update_shared_details`
pass it ends with: returns the final `data_to_write` and `poi_groups`. -/
noncomputable def process_pois (results : List RouteResult) :
    Except String (List Row × POIGroups) := do
  let st ← processResults (calculate_segment_bearings results) 0 ⟨[], [], []⟩ results
  let data ← updateSharedDetails st.poi_groups st.data_to_write
  .ok (data, st.poi_groups)

/-- The keys of the rows written so far. -/
def keysOf (st : AggState) : List RecordKey := st.data_to_write.map recordKey

/-- Invariant tying the processor's three accumulators together:
`seen_records` holds exactly the keys of the written rows, each key is
written at most once, and each row has contributed exactly one
`(side, source)` entry to the group of its POI name. -/
def AggInv (st : AggState) : Prop :=
  (∀ k, k ∈ st.seen_records ↔ k ∈ keysOf st) ∧
  (keysOf st).Nodup ∧
  (∀ nm, (lookupGroup st.poi_groups nm).length =
    (st.data_to_write.filter fun r => r.name = nm).length)

/-- One member tuple `(poi_lat, poi_lon, bearing, distance, source_lat,
source_lon)` of an optimizer POI group (`POI_Optimizer.py`). -/
structure PoiMember where
  poi_lat : ℝ
  poi_lon : ℝ
  bearing : ℝ
  distance : ℝ
  source_lat : ℝ
  source_lon : ℝ

/-- One parsed row of the optimizer's input CSV. -/
structure CsvRow where
  poi_name : String
  source_lat : ℝ
  source_lon : ℝ
  poi_lat : ℝ
  poi_lon : ℝ
  distance : ℝ
  bearing : ℝ
  side : String

/-- One output row `(source_lat, source_lon, poi_name, optimal_lat,
optimal_lon)` of `optimize_poi_positions`. -/
structure OutRow where
  source_lat : ℝ
  source_lon : ℝ
  poi_name : String
  optimal_lat : ℝ
  optimal_lon : ℝ

/-- The optimizer's `poi_groups` dict, as an insertion-ordered association
list from POI name to member tuples. -/
abbrev OptGroups := List (String × List PoiMember)

/-- `poi_groups[poi_name].append(member)` with dict insertion order. -/
def appendMember : OptGroups → String → PoiMember → OptGroups
  | [], nm, m => [(nm, [m])]
  | (k, l) :: rest, nm, m =>
      if k = nm then (k, l ++ [m]) :: rest
      else (k, l) :: appendMember rest nm m

/-- The reading loop of step 1 of `optimize_poi_positions`, with the
accumulated `poi_groups` dict threaded through. -/
def build_poi_groups_aux : OptGroups → List CsvRow → OptGroups
  | gs, [] => gs
  | gs, row :: rest =>
      build_poi_groups_aux
        (if row.poi_name = "" then gs
         else if (pyLower row.side) ≠ "right" then gs
         else appendMember gs row.poi_name
           ⟨row.poi_lat, row.poi_lon, row.bearing, row.distance,
            row.source_lat, row.source_lon⟩) rest

/-- Step 1 of `optimize_poi_positions`: group the input rows by POI name,
skipping rows with a falsy (empty) `poi_name` and rows whose lower-cased
`side` is not `"right"`. -/
def build_poi_groups (rows : List CsvRow) : OptGroups :=
  build_poi_groups_aux [] rows

/-- `POIOptimizer.calculate_average_distance`: `np.mean(distances)`. -/
noncomputable def calculate_average_distance (distances : List ℝ) : ℝ :=
  distances.sum / distances.length

/-- `POIOptimizer.find_min_bearing`: `min(poi_group, key=lambda x: x[2])`;
Python's `min` keeps the first minimum and raises `ValueError` (here
`none`) on an empty sequence. -/
noncomputable def find_min_bearing : List PoiMember → Option PoiMember
  | [] => none
  | m :: rest => some (rest.foldl (fun acc x => if x.bearing < acc.bearing then x else acc) m)

/-- `POIOptimizer.calculate_new_position`: forward projection from
`(lat, lon)` along `bearing` over `distance` metres on a sphere of radius
6371000 m. -/
noncomputable def calculate_new_position (lat lon bearing distance : ℝ) : ℝ × ℝ :=
  let R : ℝ := 6371000
  let b := radians bearing
  let lat1 := radians lat
  let lon1 := radians lon
  let lat2 := Real.arcsin (Real.sin lat1 * Real.cos (distance / R) +
    Real.cos lat1 * Real.sin (distance / R) * Real.cos b)
  let lon2 := lon1 + atan2 (Real.sin b * Real.sin (distance / R) * Real.cos lat1)
    (Real.cos (distance / R) - Real.sin lat1 * Real.sin lat2)
  (degrees lat2, degrees lon2)

/-- Step 2 of `optimize_poi_positions` for one group: average distance,
minimum-bearing anchor, one projected position, one output row per member. -/
noncomputable def optimize_group (poi_name : String) (group : List PoiMember) :
    Except String (List OutRow) :=
  let distances := group.map fun g => g.distance
  let average_distance := calculate_average_distance distances
  match find_min_bearing group with
  | none => .error "ValueError: min() arg is an empty sequence"
  | some mb =>
      let pos := calculate_new_position mb.poi_lat mb.poi_lon mb.bearing average_distance
      .ok (group.map fun m =>
        ⟨m.source_lat, m.source_lon, poi_name, pos.1, pos.2⟩)

/-- Step 2 of `optimize_poi_positions` over all groups in dict order,
appending each group's rows to `optimized_results`. -/
noncomputable def optimize_groups : OptGroups → Except String (List OutRow)
  | [] => .ok []
  | (nm, g) :: rest => do
      let rows ← optimize_group nm g
      let rest' ← optimize_groups rest
      .ok (rows ++ rest')

/-- `POIOptimizationProcessor.optimize_poi_positions` on already-parsed CSV
rows (the file I/O itself is outside the model). -/
noncomputable def optimize_poi_positions (rows : List CsvRow) :
    Except String (List OutRow) :=
  optimize_groups (build_poi_groups rows)

/-- The rows `optimize_poi_positions` emits for one group whose
minimum-bearing member is `mb`: one row per member, all carrying the one
position projected from `mb` over the group's average distance. -/
noncomputable def optimized_rows (poi_name : String) (group : List PoiMember)
    (mb : PoiMember) : List OutRow :=
  group.map fun m =>
    ⟨m.source_lat, m.source_lon, poi_name,
     (calculate_new_position mb.poi_lat mb.poi_lon mb.bearing
        (calculate_average_distance (group.map fun x => x.distance))).1,
     (calculate_new_position mb.poi_lat mb.poi_lon mb.bearing
        (calculate_average_distance (group.map fun x => x.distance))).2⟩

/-- The inner loop of `group_similar_pois` for one seed name: scan the
not-yet-processed entries in order, merge (collect) the members of every
name whose `fuzz.ratio` against the lower-cased seed exceeds 85, and
return the remaining unprocessed entries.  `ratio` abstracts
`fuzz.ratio` of the external `fuzzywuzzy` collaborator. -/
def scan_others (ratio : String → String → ℕ) (poi_name : String) :
    List (String × List PoiMember) → List PoiMember × List (String × List PoiMember)
  | [] => ([], [])
  | (other, g) :: rest =>
      let p := scan_others ratio poi_name rest
      if 85 < ratio (pyLower poi_name) (pyLower other) then (g ++ p.1, p.2)
      else (p.1, (other, g) :: p.2)

/-- Fuelled recursion for `group_similar_pois`; the fuel (initially the
number of names) never runs out because each round consumes at least the
seed entry. -/
def group_similar_aux (ratio : String → String → ℕ) :
    ℕ → OptGroups → OptGroups
  | 0, _ => []
  | _ + 1, [] => []
  | fuel + 1, (nm, g) :: rest =>
      let p := scan_others ratio nm rest
      (nm, g ++ p.1) :: group_similar_aux ratio fuel p.2

/-- `POIOptimizationProcessor.group_similar_pois`: greedy single pass over
POI names in encounter order; each seed absorbs every later unprocessed
name with case-insensitive similarity ratio strictly above 85. -/
def group_similar_pois (ratio : String → String → ℕ) (gs : OptGroups) : OptGroups :=
  group_similar_aux ratio gs.length gs

/-- `np.linalg.norm` of the difference of two coordinate pairs. -/
noncomputable def dist2 (a b : ℝ × ℝ) : ℝ :=
  Real.sqrt ((a.1 - b.1) ^ 2 + (a.2 - b.2) ^ 2)

/-- `np.mean(coords, axis=0)`. -/
noncomputable def mean_pos (coords : List (ℝ × ℝ)) : ℝ × ℝ :=
  ((coords.map Prod.fst).sum / coords.length,
   (coords.map Prod.snd).sum / coords.length)

/-- One iteration of `POIOptimizer.geometric_median`: keep the members at
distance strictly above the tolerance from the current estimate, weight
them by inverse distance normalised by the weight sum, and take the
weighted sum (an empty mask yields `(0, 0)`, as the empty `np.sum`). -/
noncomputable def gm_step (coords : List (ℝ × ℝ)) (tolerance : ℝ)
    (median : ℝ × ℝ) : ℝ × ℝ :=
  let nz := coords.filter fun c => tolerance < dist2 c median
  let invSum := (nz.map fun c => 1 / dist2 c median).sum
  ((nz.map fun c => 1 / dist2 c median / invSum * c.1).sum,
   (nz.map fun c => 1 / dist2 c median / invSum * c.2).sum)

/-- The `for _ in range(max_iterations)` loop of `geometric_median`:
return the new estimate as soon as it moves by less than the tolerance,
otherwise keep iterating; when the fuel is exhausted return the current
estimate. -/
noncomputable def gm_loop (coords : List (ℝ × ℝ)) (tolerance : ℝ) :
    ℕ → ℝ × ℝ → ℝ × ℝ
  | 0, median => median
  | fuel + 1, median =>
      let new_median := gm_step coords tolerance median
      if dist2 new_median median < tolerance then new_median
      else gm_loop coords tolerance fuel new_median

/-- `POIOptimizer.geometric_median` with the default `max_iterations=100`
and `tolerance=1e-5` its callers use, starting from the arithmetic mean. -/
noncomputable def geometric_median (latitudes longitudes : List ℝ) : ℝ × ℝ :=
  gm_loop (latitudes.zip longitudes) (1e-5) 100 (mean_pos (latitudes.zip longitudes))

theorem pymod_nonneg (x y : ℝ) (hy : 0 < y) : 0 ≤ pymod x y := by
  have h := Int.floor_le (x / y)
  have : y * (⌊x / y⌋ : ℝ) ≤ y * (x / y) := by
    exact mul_le_mul_of_nonneg_left h (le_of_lt hy)
  rw [mul_div_cancel₀ _ (ne_of_gt hy)] at this
  simpa [pymod] using this

theorem pymod_lt (x y : ℝ) (hy : 0 < y) : pymod x y < y := by
  have h := Int.lt_floor_add_one (x / y)
  have : y * (x / y) < y * ((⌊x / y⌋ : ℝ) + 1) := by
    exact mul_lt_mul_of_pos_left h hy
  rw [mul_div_cancel₀ _ (ne_of_gt hy)] at this
  simp only [pymod]
  nlinarith [this]

theorem pymod_360 : pymod 360 360 = 0 := by
  have h1 : (360 : ℝ) / 360 = 1 := by norm_num
  simp [pymod, h1]

theorem pymod_540 : pymod 540 360 = 180 := by
  have h1 : (540 : ℝ) / 360 = 3 / 2 := by norm_num
  have h2 : ⌊(3 / 2 : ℝ)⌋ = 1 := by
    rw [Int.floor_eq_iff]
    norm_num
  rw [pymod, h1, h2]
  norm_num

theorem pymod_450 : pymod 450 360 = 90 := by
  have h1 : (450 : ℝ) / 360 = 5 / 4 := by
    norm_num
  have h2 : ⌊(5 / 4 : ℝ)⌋ = 1 := by
    rw [Int.floor_eq_iff]
    norm_num
  rw [pymod, h1, h2]
  norm_num

theorem pymod_270 : pymod 270 360 = 270 := by
  have h1 : (270 : ℝ) / 360 = 3 / 4 := by norm_num
  have h2 : ⌊(3 / 4 : ℝ)⌋ = 0 := by
    rw [Int.floor_eq_iff]
    norm_num
  rw [pymod, h1, h2]
  norm_num

/-- C5 (confirmed): `determine_side` returns "Right" exactly when
`delta = (poi_bearing - route_bearing + 360) % 360` lies in the closed
interval `[0, 180]`, and "Left" otherwise; moreover `delta` always lies
in `[0, 360)`, and for every bearing `b`:
`determine_side b b = "Right"`, `determine_side (b+180) b = "Right"`,
`determine_side (b+90) b = "Right"`, `determine_side (b-90) b = "Left"`. -/
theorem determine_side_spec (poi_bearing route_bearing b : ℝ) :
    (0 ≤ pymod (poi_bearing - route_bearing + 360) 360 ∧
      pymod (poi_bearing - route_bearing + 360) 360 < 360) ∧
    (determine_side poi_bearing route_bearing = "Right" ↔
      (0 ≤ pymod (poi_bearing - route_bearing + 360) 360 ∧
        pymod (poi_bearing - route_bearing + 360) 360 ≤ 180)) ∧
    (determine_side poi_bearing route_bearing = "Left" ↔
      ¬ (0 ≤ pymod (poi_bearing - route_bearing + 360) 360 ∧
        pymod (poi_bearing - route_bearing + 360) 360 ≤ 180)) ∧
    determine_side b b = "Right" ∧
    determine_side (b + 180) b = "Right" ∧
    determine_side (b + 90) b = "Right" ∧
    determine_side (b - 90) b = "Left" := by
  refine ⟨⟨pymod_nonneg _ _ (by norm_num), pymod_lt _ _ (by norm_num)⟩, ?_, ?_, ?_, ?_, ?_, ?_⟩
  · by_cases h : 0 ≤ pymod (poi_bearing - route_bearing + 360) 360 ∧
        pymod (poi_bearing - route_bearing + 360) 360 ≤ 180
    · simp [determine_side, h]
    · simp [determine_side, h]
  · by_cases h : 0 ≤ pymod (poi_bearing - route_bearing + 360) 360 ∧
        pymod (poi_bearing - route_bearing + 360) 360 ≤ 180
    · simp [determine_side, h]
    · simp [determine_side, h]
  · have e : b - b + 360 = (360 : ℝ) := by ring
    unfold determine_side
    rw [e, pymod_360]
    norm_num
  · have e : b + 180 - b + 360 = (540 : ℝ) := by ring
    unfold determine_side
    rw [e, pymod_540]
    norm_num
  · have e : b + 90 - b + 360 = (450 : ℝ) := by ring
    unfold determine_side
    rw [e, pymod_450]
    norm_num
  · have e : b - 90 - b + 360 = (270 : ℝ) := by ring
    unfold determine_side
    rw [e, pymod_270]
    norm_num

theorem sideCounts_ok (l : List GroupEntry) (c : ℕ × ℕ)
    (h : sideCounts l = Except.ok c) :
    c.1 = l.countP (fun e => decide (e.1 = "Left")) ∧
    c.2 = l.countP (fun e => decide (e.1 = "Right")) := by
  induction l generalizing c with
  | nil =>
      simp only [sideCounts] at h
      cases h
      simp
  | cons e rest ih =>
      simp only [sideCounts] at h
      cases hr : sideCounts rest with
      | error s => rw [hr] at h; simp [Bind.bind, Except.bind] at h
      | ok c' =>
          rw [hr] at h
          simp only [Bind.bind, Except.bind] at h
          obtain ⟨h1, h2⟩ := ih c' hr
          by_cases hL : e.1 = "Left"
          · rw [if_pos hL] at h
            cases h
            have hR : ¬ e.1 = "Right" := by rw [hL]; decide
            simp [List.countP_cons, hL, hR, h1, h2]
          · rw [if_neg hL] at h
            by_cases hR : e.1 = "Right"
            · rw [if_pos hR] at h
              cases h
              simp [List.countP_cons, hL, hR, h1, h2]
            · rw [if_neg hR] at h
              simp at h

theorem updateRow_spec (groups : POIGroups) (row row' : Row)
    (h : updateRow groups row = Except.ok row') :
    row'.name = row.name ∧ recordKey row' = recordKey row ∧
    row'.shared_with =
      some ((lookupGroup groups row.name).map fun e => (e.2.1, e.2.2)) ∧
    ((lookupGroup groups row.name).length ≤ 1 → row'.side = row.side) ∧
    (1 < (lookupGroup groups row.name).length →
      ∃ c, sideCounts (lookupGroup groups row.name) = Except.ok c ∧
        row'.side = if c.1 < c.2 then "Right" else "Left") := by
  unfold updateRow at h
  by_cases hl : 1 < (lookupGroup groups row.name).length
  · rw [if_pos hl] at h
    cases hsc : sideCounts (lookupGroup groups row.name) with
    | error s => rw [hsc] at h; simp [Bind.bind, Except.bind] at h
    | ok c =>
        rw [hsc] at h
        simp only [Bind.bind, Except.bind, Pure.pure, Except.pure] at h
        cases h
        refine ⟨rfl, rfl, rfl, ?_, ?_⟩
        · intro hle; omega
        · intro _; exact ⟨c, rfl, rfl⟩
  · rw [if_neg hl] at h
    simp only [Bind.bind, Except.bind, Pure.pure, Except.pure] at h
    cases h
    refine ⟨rfl, rfl, rfl, fun _ => rfl, fun hgt => absurd hgt hl⟩

theorem updateSharedDetails_ok (groups : POIGroups) (rows rows' : List Row)
    (h : updateSharedDetails groups rows = Except.ok rows') :
    rows'.length = rows.length ∧
    ∀ i (hi : i < rows.length) (hi' : i < rows'.length),
      updateRow groups (rows.get ⟨i, hi⟩) = Except.ok (rows'.get ⟨i, hi'⟩) := by
  induction rows generalizing rows' with
  | nil =>
      simp only [updateSharedDetails] at h
      cases h
      exact ⟨rfl, fun i hi => absurd hi (by simp)⟩
  | cons r rest ih =>
      simp only [updateSharedDetails] at h
      cases hr : updateRow groups r with
      | error s => rw [hr] at h; simp [Bind.bind, Except.bind] at h
      | ok r' =>
          rw [hr] at h
          cases hrest : updateSharedDetails groups rest with
          | error s =>
              rw [hrest] at h; simp [Bind.bind, Except.bind] at h
          | ok rest' =>
              rw [hrest] at h
              simp only [Bind.bind, Except.bind] at h
              cases h
              obtain ⟨hlen, hidx⟩ := ih rest' hrest
              refine ⟨by simp [hlen], ?_⟩
              intro i hi hi'
              cases i with
              | zero => simpa using hr
              | succ j =>
                  simp only [List.get_cons_succ]
                  exact hidx j (by simpa using hi) (by simpa using hi')

/-- C1 counterexample: a POI-name group with one "Right" and one "Left"
member is a tie; the claim says the consensus side is then "Right", but
`_update_shared_details` (`row[7] = "Right" if side_counts["Right"] >
side_counts["Left"] else "Left"`) produces "Left". -/
theorem consensus_tie_left_counterexample :
    updateSharedDetails
        [(some "A", [("Right", (0 : ℝ), (0 : ℝ)), ("Left", (1 : ℝ), (0 : ℝ))])]
        [⟨0, 0, some "A", 5, 5, 7, 30, "Right", "", none⟩] =
      Except.ok [⟨0, 0, some "A", 5, 5, 7, 30, "Left", "",
        some [((0 : ℝ), (0 : ℝ)), ((1 : ℝ), (0 : ℝ))]⟩] ∧
    ("Left" : String) ≠ "Right" := ⟨rfl, by decide⟩

/-- C1 (corrected): for every row whose POI-name group has more than one
member, the consensus pass sets the row's side to "Right" exactly when the
"Right" members strictly outnumber the "Left" members over all
`(side, source)` entries of the group, and to "Left" otherwise — so an
equal count of "Right" and "Left" members yields "Left", not "Right". -/
theorem consensus_side_strict_majority (groups : POIGroups)
    (rows rows' : List Row) (i : ℕ) (hi : i < rows.length) (hi' : i < rows'.length)
    (hok : updateSharedDetails groups rows = Except.ok rows')
    (hlen : 1 < (lookupGroup groups (rows.get ⟨i, hi⟩).name).length) :
    (rows'.get ⟨i, hi'⟩).side =
      if (lookupGroup groups (rows.get ⟨i, hi⟩).name).countP
            (fun e => decide (e.1 = "Left")) <
         (lookupGroup groups (rows.get ⟨i, hi⟩).name).countP
            (fun e => decide (e.1 = "Right"))
      then "Right" else "Left" := by
  obtain ⟨-, hidx⟩ := updateSharedDetails_ok groups rows rows' hok
  obtain ⟨-, -, -, -, hmaj⟩ := updateRow_spec groups _ _ (hidx i hi hi')
  obtain ⟨c, hsc, hside⟩ := hmaj hlen
  obtain ⟨hc1, hc2⟩ := sideCounts_ok _ _ hsc
  rw [hside, hc1, hc2]

/-- Witness for C1: a 2-"Right"/1-"Left" group; the member row's side is
rewritten from "Left" to the strict majority "Right". -/
theorem consensus_side_strict_majority_witness :
    updateSharedDetails
        [(some "A", [("Right", (0 : ℝ), (0 : ℝ)), ("Right", (1 : ℝ), (0 : ℝ)),
          ("Left", (2 : ℝ), (0 : ℝ))])]
        [⟨0, 0, some "A", 5, 5, 7, 30, "Left", "", none⟩] =
      Except.ok [⟨0, 0, some "A", 5, 5, 7, 30, "Right", "",
        some [((0 : ℝ), (0 : ℝ)), ((1 : ℝ), (0 : ℝ)), ((2 : ℝ), (0 : ℝ))]⟩] ∧
    (([⟨0, 0, some "A", 5, 5, 7, 30, "Right", "",
        some [((0 : ℝ), (0 : ℝ)), ((1 : ℝ), (0 : ℝ)), ((2 : ℝ), (0 : ℝ))]⟩] :
        List Row).get ⟨0, Nat.one_pos⟩).side = "Right" := by
  refine ⟨rfl, ?_⟩
  rw [consensus_side_strict_majority
    [(some "A", [("Right", (0 : ℝ), (0 : ℝ)), ("Right", (1 : ℝ), (0 : ℝ)),
      ("Left", (2 : ℝ), (0 : ℝ))])]
    [⟨0, 0, some "A", 5, 5, 7, 30, "Left", "", none⟩]
    [⟨0, 0, some "A", 5, 5, 7, 30, "Right", "",
      some [((0 : ℝ), (0 : ℝ)), ((1 : ℝ), (0 : ℝ)), ((2 : ℝ), (0 : ℝ))]⟩]
    0 Nat.one_pos Nat.one_pos rfl (by decide)]
  decide

/-- C4 counterexample: a row whose POI-name group has exactly one member
does not keep its `shared_with` field: it is overwritten from `None` to
the one-element list of the group's source coordinates. -/
theorem single_member_shared_with_counterexample :
    updateSharedDetails [(some "B", [("Left", (3 : ℝ), (4 : ℝ))])]
        [⟨9, 9, some "B", 5, 5, 7, 30, "Left", "", none⟩] =
      Except.ok [⟨9, 9, some "B", 5, 5, 7, 30, "Left", "",
        some [((3 : ℝ), (4 : ℝ))]⟩] ∧
    some [((3 : ℝ), (4 : ℝ))] ≠ (none : Option (List (ℝ × ℝ))) :=
  ⟨rfl, by simp⟩

/-- C4 (corrected): for a row whose POI-name group has at most one member
the consensus pass leaves `side` exactly as originally computed, but it
does overwrite `shared_with` (for a single-member group, with the
one-element list of that member's source coordinates). -/
theorem single_member_row_update (groups : POIGroups)
    (rows rows' : List Row) (i : ℕ) (hi : i < rows.length) (hi' : i < rows'.length)
    (hok : updateSharedDetails groups rows = Except.ok rows')
    (hlen : (lookupGroup groups (rows.get ⟨i, hi⟩).name).length ≤ 1) :
    (rows'.get ⟨i, hi'⟩).side = (rows.get ⟨i, hi⟩).side ∧
    (rows'.get ⟨i, hi'⟩).shared_with =
      some ((lookupGroup groups (rows.get ⟨i, hi⟩).name).map fun e => (e.2.1, e.2.2)) := by
  obtain ⟨-, hidx⟩ := updateSharedDetails_ok groups rows rows' hok
  obtain ⟨-, -, hsw, hkeep, -⟩ := updateRow_spec groups _ _ (hidx i hi hi')
  exact ⟨hkeep hlen, hsw⟩

/-- Witness for C4: a single-member group; the side stays "Left" and
`shared_with` becomes the group's one source pair. -/
theorem single_member_row_update_witness :
    updateSharedDetails [(some "B", [("Left", (3 : ℝ), (4 : ℝ))])]
        [⟨9, 9, some "B", 5, 5, 7, 30, "Left", "", none⟩] =
      Except.ok [⟨9, 9, some "B", 5, 5, 7, 30, "Left", "",
        some [((3 : ℝ), (4 : ℝ))]⟩] ∧
    (([⟨9, 9, some "B", 5, 5, 7, 30, "Left", "",
        some [((3 : ℝ), (4 : ℝ))]⟩] : List Row).get ⟨0, Nat.one_pos⟩).side = "Left" ∧
    (([⟨9, 9, some "B", 5, 5, 7, 30, "Left", "",
        some [((3 : ℝ), (4 : ℝ))]⟩] : List Row).get ⟨0, Nat.one_pos⟩).shared_with =
      some [((3 : ℝ), (4 : ℝ))] := by
  refine ⟨rfl, ?_, ?_⟩
  · have h := single_member_row_update [(some "B", [("Left", (3 : ℝ), (4 : ℝ))])]
      [⟨9, 9, some "B", 5, 5, 7, 30, "Left", "", none⟩]
      [⟨9, 9, some "B", 5, 5, 7, 30, "Left", "", some [((3 : ℝ), (4 : ℝ))]⟩]
      0 Nat.one_pos Nat.one_pos rfl (by decide)
    exact h.1
  · have h := single_member_row_update [(some "B", [("Left", (3 : ℝ), (4 : ℝ))])]
      [⟨9, 9, some "B", 5, 5, 7, 30, "Left", "", none⟩]
      [⟨9, 9, some "B", 5, 5, 7, 30, "Left", "", some [((3 : ℝ), (4 : ℝ))]⟩]
      0 Nat.one_pos Nat.one_pos rfl (by decide)
    rw [h.2]
    rfl

/-- C3 counterexample: a route with a single RoutePoint that has a nearby
POI observation attached does not yield an empty result — `process_pois`
raises `IndexError` (`self.segment_bearings[-1]` on an empty list). -/
theorem degenerate_route_raises_counterexample :
    process_pois [⟨⟨0, 0⟩, [⟨some "Cafe", some 1, some 1, []⟩]⟩] =
      Except.error "list index out of range" := rfl

/-- C3 (corrected): an input with zero RoutePoints terminates normally
with an empty result, but an input with exactly one RoutePoint raises
`IndexError` (even when no POIs are attached) instead of returning empty. -/
theorem degenerate_route_behavior (results : List RouteResult) :
    (results = [] → process_pois results = Except.ok ([], [])) ∧
    (results.length = 1 →
      process_pois results = Except.error "list index out of range") := by
  constructor
  · rintro rfl
    rfl
  · intro h
    cases results with
    | nil => simp at h
    | cons r rest =>
        cases rest with
        | nil => rfl
        | cons r2 rest2 => simp at h

/-- Witness for C3: the empty route returns the empty result, a concrete
single-point route aborts. -/
theorem degenerate_route_behavior_witness :
    process_pois [] = Except.ok ([], []) ∧
    process_pois [⟨⟨2, 3⟩, []⟩] = Except.error "list index out of range" :=
  ⟨(degenerate_route_behavior []).1 rfl,
   (degenerate_route_behavior [⟨⟨2, 3⟩, []⟩]).2 rfl⟩

theorem lookupGroup_appendGroup (gs : POIGroups) (nm : Option String)
    (e : GroupEntry) (nm' : Option String) :
    lookupGroup (appendGroup gs nm e) nm' =
      lookupGroup gs nm' ++ (if nm' = nm then [e] else []) := by
  induction gs with
  | nil =>
      simp only [appendGroup, lookupGroup]
      by_cases h : nm = nm'
      · subst h; simp
      · rw [if_neg h, if_neg (fun hh => h hh.symm)]
        simp
  | cons p rest ih =>
      obtain ⟨k, l⟩ := p
      simp only [appendGroup]
      by_cases hk : k = nm
      · rw [if_pos hk]
        simp only [lookupGroup]
        by_cases hk' : k = nm'
        · have hnm : nm' = nm := by rw [← hk', hk]
          rw [if_pos hk', if_pos hk', if_pos hnm]
        · have hnm : ¬ nm' = nm := by
            intro hh; exact hk' (by rw [hk, ← hh])
          rw [if_neg hk', if_neg hk', if_neg hnm]
          simp
      · rw [if_neg hk]
        simp only [lookupGroup]
        by_cases hk' : k = nm'
        · have hnm : ¬ nm' = nm := by
            intro hh; exact hk (by rw [hk', hh])
          rw [if_pos hk', if_pos hk', if_neg hnm]
          simp
        · rw [if_neg hk', if_neg hk', ih]

theorem aggInv_init : AggInv ⟨[], [], []⟩ :=
  ⟨fun k => by simp [keysOf], by simp [keysOf], fun nm => by simp [lookupGroup]⟩

theorem processPoi_ok_cases (slat slon cb : ℝ) (st : AggState) (p : POIEntry)
    (st' : AggState) (h : processPoi slat slon cb st p = Except.ok st') :
    ∃ plat plon, p.loc_lat = some plat ∧ p.loc_lng = some plon ∧
      ((st' = st ∧ (slat, slon, plat, plon, p.name) ∈ st.seen_records) ∨
       ((slat, slon, plat, plon, p.name) ∉ st.seen_records ∧
        st'.seen_records = st.seen_records ++ [(slat, slon, plat, plon, p.name)] ∧
        ∃ row : Row, row.name = p.name ∧
          recordKey row = (slat, slon, plat, plon, p.name) ∧
          st'.data_to_write = st.data_to_write ++ [row] ∧
          ∃ ge : GroupEntry,
            st'.poi_groups = appendGroup st.poi_groups p.name ge)) := by
  obtain ⟨nm, plat?, plon?, tys⟩ := p
  cases plat? with
  | none => simp [processPoi] at h
  | some plat =>
      cases plon? with
      | none => simp [processPoi] at h
      | some plon =>
          refine ⟨plat, plon, rfl, rfl, ?_⟩
          simp only [processPoi] at h
          by_cases hmem : ((slat, slon, plat, plon, nm) : RecordKey) ∈ st.seen_records
          · rw [if_pos hmem] at h
            cases h
            exact Or.inl ⟨rfl, hmem⟩
          · rw [if_neg hmem] at h
            cases h
            refine Or.inr ⟨hmem, rfl,
              ⟨{ source_lat := slat, source_lon := slon, name := nm,
                 poi_lat := plat, poi_lon := plon,
                 distance := (haversine_and_bearing slat slon plat plon).1,
                 bearing := (haversine_and_bearing slat slon plat plon).2,
                 side := determine_side (haversine_and_bearing slat slon plat plon).2 cb,
                 all_types := String.intercalate "," tys,
                 shared_with := none }, rfl, rfl, rfl,
               (determine_side (haversine_and_bearing slat slon plat plon).2 cb,
                 slat, slon), rfl⟩⟩

theorem processPoi_inv (slat slon cb : ℝ) (st : AggState) (p : POIEntry)
    (st' : AggState) (hinv : AggInv st)
    (h : processPoi slat slon cb st p = Except.ok st') :
    AggInv st' ∧ (∀ k ∈ keysOf st, k ∈ keysOf st') ∧
    ∃ plat plon, p.loc_lat = some plat ∧ p.loc_lng = some plon ∧
      (slat, slon, plat, plon, p.name) ∈ keysOf st' := by
  obtain ⟨plat, plon, hlat, hlon, hcase⟩ := processPoi_ok_cases slat slon cb st p st' h
  obtain ⟨hseen, hnodup, hgrp⟩ := hinv
  cases hcase with
  | inl hsame =>
      obtain ⟨rfl, hmem⟩ := hsame
      exact ⟨⟨hseen, hnodup, hgrp⟩, fun k hk => hk,
        plat, plon, hlat, hlon, (hseen _).mp hmem⟩
  | inr hnew =>
      obtain ⟨hnmem, hseen', row, hname, hkey, hdata, ge, hgrp'⟩ := hnew
      have hkeys : keysOf st' = keysOf st ++ [(slat, slon, plat, plon, p.name)] := by
        simp [keysOf, hdata, hkey]
      have hknot : ((slat, slon, plat, plon, p.name) : RecordKey) ∉ keysOf st :=
        fun hc => hnmem ((hseen _).mpr hc)
      refine ⟨⟨?_, ?_, ?_⟩, ?_, plat, plon, hlat, hlon, ?_⟩
      · intro k
        rw [hkeys, hseen']
        simp [hseen k]
      · rw [hkeys]
        simp [List.nodup_append, hnodup, hknot]
      · intro nm
        rw [hgrp', hdata, lookupGroup_appendGroup, List.filter_append]
        simp only [List.length_append]
        rw [hgrp nm]
        by_cases hnm : nm = p.name
        · subst hnm
          simp [hname]
        · have : ¬ row.name = nm := by rw [hname]; exact fun hh => hnm hh.symm
          simp [hnm, this]
      · intro k hk
        rw [hkeys]
        simp [hk]
      · rw [hkeys]
        simp

theorem processNearby_inv (slat slon cb : ℝ) (pois : List POIEntry)
    (st st' : AggState) (hinv : AggInv st)
    (h : processNearby slat slon cb st pois = Except.ok st') :
    AggInv st' ∧ (∀ k ∈ keysOf st, k ∈ keysOf st') ∧
    ∀ p ∈ pois, ∃ plat plon, p.loc_lat = some plat ∧ p.loc_lng = some plon ∧
      (slat, slon, plat, plon, p.name) ∈ keysOf st' := by
  induction pois generalizing st with
  | nil =>
      simp only [processNearby] at h
      cases h
      exact ⟨hinv, fun k hk => hk, by simp⟩
  | cons p rest ih =>
      simp only [processNearby] at h
      cases hp : processPoi slat slon cb st p with
      | error s => rw [hp] at h; simp [Bind.bind, Except.bind] at h
      | ok st1 =>
          rw [hp] at h
          simp only [Bind.bind, Except.bind] at h
          obtain ⟨hinv1, hmono1, plat, plon, hlat, hlon, hkey⟩ :=
            processPoi_inv slat slon cb st p st1 hinv hp
          obtain ⟨hinv', hmono', hall⟩ := ih st1 hinv1 h
          refine ⟨hinv', fun k hk => hmono' k (hmono1 k hk), ?_⟩
          intro q hq
          cases hq with
          | head => exact ⟨plat, plon, hlat, hlon, hmono' _ hkey⟩
          | tail _ hq' => exact hall q hq'

theorem processResults_inv (segs : List ℝ) (results : List RouteResult)
    (i : ℕ) (st st' : AggState) (hinv : AggInv st)
    (h : processResults segs i st results = Except.ok st') :
    AggInv st' ∧ (∀ k ∈ keysOf st, k ∈ keysOf st') ∧
    ∀ r ∈ results, ∀ p ∈ r.nearby,
      ∃ plat plon, p.loc_lat = some plat ∧ p.loc_lng = some plon ∧
        (r.coordinate.lat, r.coordinate.lon, plat, plon, p.name) ∈ keysOf st' := by
  induction results generalizing i st with
  | nil =>
      simp only [processResults] at h
      cases h
      exact ⟨hinv, fun k hk => hk, by simp⟩
  | cons r rest ih =>
      simp only [processResults] at h
      cases hcb : currentBearing segs i with
      | error s => rw [hcb] at h; simp [Bind.bind, Except.bind] at h
      | ok cb =>
          rw [hcb] at h
          simp only [Bind.bind, Except.bind] at h
          cases hn : processNearby r.coordinate.lat r.coordinate.lon cb st r.nearby with
          | error s => rw [hn] at h; simp at h
          | ok st1 =>
              rw [hn] at h
              obtain ⟨hinv1, hmono1, hall1⟩ :=
                processNearby_inv r.coordinate.lat r.coordinate.lon cb r.nearby st st1 hinv hn
              obtain ⟨hinv', hmono', hall'⟩ := ih (i + 1) st1 hinv1 h
              refine ⟨hinv', fun k hk => hmono' k (hmono1 k hk), ?_⟩
              intro q hq
              cases hq with
              | head =>
                  intro p hp
                  obtain ⟨plat, plon, h1, h2, h3⟩ := hall1 p hp
                  exact ⟨plat, plon, h1, h2, hmono' _ h3⟩
              | tail _ hq' => exact hall' q hq'

theorem updateSharedDetails_preserves (groups : POIGroups)
    (rows rows' : List Row) (h : updateSharedDetails groups rows = Except.ok rows') :
    rows'.map recordKey = rows.map recordKey ∧
    rows'.map (fun r => r.name) = rows.map (fun r => r.name) := by
  induction rows generalizing rows' with
  | nil =>
      simp only [updateSharedDetails] at h
      cases h
      simp
  | cons r rest ih =>
      simp only [updateSharedDetails] at h
      cases hr : updateRow groups r with
      | error s => rw [hr] at h; simp [Bind.bind, Except.bind] at h
      | ok r' =>
          rw [hr] at h
          cases hrest : updateSharedDetails groups rest with
          | error s => rw [hrest] at h; simp [Bind.bind, Except.bind] at h
          | ok rest' =>
              rw [hrest] at h
              simp only [Bind.bind, Except.bind] at h
              cases h
              obtain ⟨hname, hkey, -, -, -⟩ := updateRow_spec groups r r' hr
              obtain ⟨ih1, ih2⟩ := ih rest' hrest
              simp [hname, hkey, ih1, ih2]

theorem filter_name_length_eq (rows rows' : List Row)
    (hmap : rows'.map (fun r => r.name) = rows.map (fun r => r.name))
    (nm : Option String) :
    (rows'.filter fun r => r.name = nm).length =
      (rows.filter fun r => r.name = nm).length := by
  have h1 : ∀ l : List Row, (l.filter fun r => r.name = nm).length =
      ((l.map fun r => r.name).countP fun x => decide (x = nm)) := by
    intro l
    rw [List.countP_map, ← List.countP_eq_length_filter]
    rfl
  rw [h1, h1, hmap]

/-- C2 counterexample: an observation whose POI longitude is missing is not
skipped — `process_pois` aborts the whole run with a `TypeError` (Python
arithmetic on `None` inside `haversine_and_bearing`), even though a second
route point with further observations was still pending. -/
theorem missing_coordinates_abort_counterexample :
    process_pois [⟨⟨0, 0⟩, [⟨some "Cafe", some 1, none, []⟩]⟩, ⟨⟨1, 0⟩, []⟩] =
      Except.error "TypeError: unsupported operand type for NoneType" := rfl

/-- C2 (corrected): an observation with a missing (null) POI latitude or
longitude is never skipped: `process_pois` cannot complete successfully on
an input containing one — every observation of a successful run has both
coordinates present, and an input with a missing coordinate aborts the run
with a `TypeError`. -/
theorem missing_coordinates_never_skipped (results : List RouteResult)
    (out : List Row × POIGroups) (hok : process_pois results = Except.ok out) :
    ∀ r ∈ results, ∀ p ∈ r.nearby, p.loc_lat.isSome ∧ p.loc_lng.isSome := by
  unfold process_pois at hok
  cases hres : processResults (calculate_segment_bearings results) 0 ⟨[], [], []⟩ results with
  | error s => rw [hres] at hok; simp [Bind.bind, Except.bind] at hok
  | ok st =>
      rw [hres] at hok
      obtain ⟨-, -, hall⟩ :=
        processResults_inv (calculate_segment_bearings results) results 0 _ st aggInv_init hres
      intro r hr p hp
      obtain ⟨plat, plon, h1, h2, -⟩ := hall r hr p hp
      exact ⟨by rw [h1]; rfl, by rw [h2]; rfl⟩

/-- Witness for C2: a successful two-point run (no observations), on which
the conclusion of the corrected claim holds. -/
theorem missing_coordinates_never_skipped_witness :
    process_pois [⟨⟨0, 0⟩, []⟩, ⟨⟨0, 1⟩, []⟩] = Except.ok ([], []) ∧
    ∀ r ∈ ([⟨⟨0, 0⟩, []⟩, ⟨⟨0, 1⟩, []⟩] : List RouteResult), ∀ p ∈ r.nearby,
      p.loc_lat.isSome ∧ p.loc_lng.isSome :=
  ⟨rfl, missing_coordinates_never_skipped [⟨⟨0, 0⟩, []⟩, ⟨⟨0, 1⟩, []⟩] ([], []) rfl⟩

/-- C6 (confirmed): in every successful run, the written records have
pairwise-distinct identity keys `(source_lat, source_lon, poi_lat,
poi_lon, name)`, every input observation's key is present among the
written records (so two observations with the same key yield exactly one
record — the later duplicate is dropped), and every POI-name group holds
exactly one `(side, source)` entry per written record of that name. -/
theorem exact_dedup_by_identity_key (results : List RouteResult)
    (data : List Row) (groups : POIGroups)
    (hok : process_pois results = Except.ok (data, groups)) :
    (data.map recordKey).Nodup ∧
    (∀ r ∈ results, ∀ p ∈ r.nearby, ∃ plat plon,
        p.loc_lat = some plat ∧ p.loc_lng = some plon ∧
        (r.coordinate.lat, r.coordinate.lon, plat, plon, p.name) ∈ data.map recordKey) ∧
    (∀ nm, (lookupGroup groups nm).length =
      (data.filter fun row => row.name = nm).length) := by
  unfold process_pois at hok
  cases hres : processResults (calculate_segment_bearings results) 0 ⟨[], [], []⟩ results with
  | error s => rw [hres] at hok; simp [Bind.bind, Except.bind] at hok
  | ok st =>
      rw [hres] at hok
      simp only [Bind.bind, Except.bind] at hok
      cases hupd : updateSharedDetails st.poi_groups st.data_to_write with
      | error s => rw [hupd] at hok; simp at hok
      | ok data0 =>
          rw [hupd] at hok
          cases hok
          obtain ⟨⟨-, hnodup, hgrp⟩, -, hall⟩ :=
            processResults_inv (calculate_segment_bearings results) results 0 _ st
              aggInv_init hres
          obtain ⟨hkeys, hnames⟩ := updateSharedDetails_preserves _ _ _ hupd
          refine ⟨?_, ?_, ?_⟩
          · rw [hkeys]; exact hnodup
          · intro r hr p hp
            obtain ⟨plat, plon, h1, h2, h3⟩ := hall r hr p hp
            exact ⟨plat, plon, h1, h2, by rw [hkeys]; exact h3⟩
          · intro nm
            rw [hgrp nm]
            exact (filter_name_length_eq st.data_to_write data hnames nm).symm

/-- Witness for C6: the empty run succeeds and its record keys are
trivially duplicate-free. -/
theorem exact_dedup_by_identity_key_witness :
    process_pois [] = Except.ok ([], []) ∧
    ((([] : List Row)).map recordKey).Nodup :=
  ⟨rfl, (exact_dedup_by_identity_key [] [] [] rfl).1⟩

theorem gm_loop_iterate (coords : List (ℝ × ℝ)) (tolerance : ℝ) :
    ∀ (fuel : ℕ) (m : ℝ × ℝ), ∃ n ≤ fuel,
      gm_loop coords tolerance fuel m = (gm_step coords tolerance)^[n] m ∧
      (n < fuel → 1 ≤ n ∧
        dist2 ((gm_step coords tolerance)^[n] m)
          ((gm_step coords tolerance)^[n - 1] m) < tolerance) := by
  intro fuel
  induction fuel with
  | zero =>
      intro m
      exact ⟨0, le_refl 0, rfl, fun h => absurd h (by omega)⟩
  | succ f ih =>
      intro m
      by_cases h : dist2 (gm_step coords tolerance m) m < tolerance
      · refine ⟨1, by omega, ?_, ?_⟩
        · simp only [gm_loop]
          rw [if_pos h]
          simp
        · intro _
          refine ⟨le_refl 1, ?_⟩
          simpa using h
      · obtain ⟨k, hk, heq, hconv⟩ := ih (gm_step coords tolerance m)
        refine ⟨k + 1, by omega, ?_, ?_⟩
        · simp only [gm_loop, if_neg h]
          rw [heq, ← Function.iterate_succ_apply]
        · intro hlt
          have hkf : k < f := by omega
          obtain ⟨h1, h2⟩ := hconv hkf
          refine ⟨by omega, ?_⟩
          have e1 : (gm_step coords tolerance)^[k + 1] m =
              (gm_step coords tolerance)^[k] (gm_step coords tolerance m) := by
            rw [Function.iterate_succ_apply]
          have e2 : (gm_step coords tolerance)^[k + 1 - 1] m =
              (gm_step coords tolerance)^[k - 1] (gm_step coords tolerance m) := by
            have e3 : k + 1 - 1 = (k - 1) + 1 := by omega
            rw [e3, Function.iterate_succ_apply]
          rw [e1, e2]
          exact h2

/-- C9 (confirmed): for every non-empty list of member coordinates,
`geometric_median` performs at most 100 reweighting iterations starting
from the arithmetic mean; it stops early only when an update moved the
estimate by less than 1e-5, and when the cap is reached it returns the
current estimate (the function is total — non-convergence is no error). -/
theorem geometric_median_terminates (latitudes longitudes : List ℝ)
    (hne : latitudes ≠ []) :
    ∃ n ≤ 100,
      geometric_median latitudes longitudes =
        (gm_step (latitudes.zip longitudes) (1e-5))^[n]
          (mean_pos (latitudes.zip longitudes)) ∧
      (n < 100 → 1 ≤ n ∧
        dist2 ((gm_step (latitudes.zip longitudes) (1e-5))^[n]
            (mean_pos (latitudes.zip longitudes)))
          ((gm_step (latitudes.zip longitudes) (1e-5))^[n - 1]
            (mean_pos (latitudes.zip longitudes))) < 1e-5) := by
  have hu := hne
  exact gm_loop_iterate (latitudes.zip longitudes) (1e-5) 100
    (mean_pos (latitudes.zip longitudes))

/-- Witness for C9: the singleton member list. -/
theorem geometric_median_terminates_witness :
    ([(0 : ℝ)] ≠ ([] : List ℝ)) ∧
    (∃ n ≤ 100,
      geometric_median [(0 : ℝ)] [(0 : ℝ)] =
        (gm_step ([(0 : ℝ)].zip [(0 : ℝ)]) (1e-5))^[n]
          (mean_pos ([(0 : ℝ)].zip [(0 : ℝ)])) ∧
      (n < 100 → 1 ≤ n ∧
        dist2 ((gm_step ([(0 : ℝ)].zip [(0 : ℝ)]) (1e-5))^[n]
            (mean_pos ([(0 : ℝ)].zip [(0 : ℝ)])))
          ((gm_step ([(0 : ℝ)].zip [(0 : ℝ)]) (1e-5))^[n - 1]
            (mean_pos ([(0 : ℝ)].zip [(0 : ℝ)]))) < 1e-5)) :=
  ⟨by simp, geometric_median_terminates [(0 : ℝ)] [(0 : ℝ)] (by simp)⟩

theorem scan_others_eq (ratio : String → String → ℕ) (nm : String)
    (l : List (String × List PoiMember)) :
    scan_others ratio nm l =
      (((l.filter fun p => 85 < ratio (pyLower nm) (pyLower p.1)).map Prod.snd).flatten,
       l.filter fun p => ¬ 85 < ratio (pyLower nm) (pyLower p.1)) := by
  induction l with
  | nil => rfl
  | cons p rest ih =>
      obtain ⟨other, g⟩ := p
      simp only [scan_others, ih]
      by_cases h : 85 < ratio (pyLower nm) (pyLower other)
      · rw [if_pos h, List.filter_cons_of_pos (by simpa using h),
          List.filter_cons_of_neg (by simpa using h)]
        simp
      · rw [if_neg h, List.filter_cons_of_neg (by simpa using h),
          List.filter_cons_of_pos (by simpa using h)]

theorem scan_others_rem_len (ratio : String → String → ℕ) (nm : String)
    (l : List (String × List PoiMember)) :
    (scan_others ratio nm l).2.length ≤ l.length := by
  rw [scan_others_eq]
  simpa using List.length_filter_le _ l

theorem group_similar_aux_fuel (ratio : String → String → ℕ) :
    ∀ (n fuel k : ℕ) (gs : OptGroups), gs.length ≤ n → gs.length ≤ fuel →
      gs.length ≤ k →
      group_similar_aux ratio fuel gs = group_similar_aux ratio k gs := by
  intro n
  induction n with
  | zero =>
      intro fuel k gs h0 _ _
      have hgs : gs = [] := List.length_eq_zero.mp (Nat.le_zero.mp h0)
      subst hgs
      cases fuel <;> cases k <;> rfl
  | succ n ih =>
      intro fuel k gs h0 hf hk
      cases gs with
      | nil => cases fuel <;> cases k <;> rfl
      | cons p rest =>
          obtain ⟨nm, g⟩ := p
          cases fuel with
          | zero => simp at hf
          | succ f =>
              cases k with
              | zero => simp at hk
              | succ u =>
                  simp only [group_similar_aux]
                  have hrem := scan_others_rem_len ratio nm rest
                  have hlen : rest.length ≤ n := by
                    simp only [List.length_cons] at h0; omega
                  have hlf : rest.length ≤ f := by
                    simp only [List.length_cons] at hf; omega
                  have hlk : rest.length ≤ u := by
                    simp only [List.length_cons] at hk; omega
                  congr 1
                  exact ih f u (scan_others ratio nm rest).2
                    (le_trans hrem hlen) (le_trans hrem hlf) (le_trans hrem hlk)

theorem group_similar_cons (ratio : String → String → ℕ) (nm : String)
    (g : List PoiMember) (rest : OptGroups) :
    group_similar_pois ratio ((nm, g) :: rest) =
      (nm, g ++ ((rest.filter fun p =>
          85 < ratio (pyLower nm) (pyLower p.1)).map Prod.snd).flatten) ::
        group_similar_pois ratio
          (rest.filter fun p => ¬ 85 < ratio (pyLower nm) (pyLower p.1)) := by
  unfold group_similar_pois
  simp only [List.length_cons, group_similar_aux, scan_others_eq]
  congr 1
  exact group_similar_aux_fuel ratio rest.length rest.length
    (rest.filter fun p => ¬ 85 < ratio (pyLower nm) (pyLower p.1)).length
    (rest.filter fun p => ¬ 85 < ratio (pyLower nm) (pyLower p.1))
    (List.length_filter_le _ _) (List.length_filter_le _ _) (le_refl _)

theorem group_similar_nil (ratio : String → String → ℕ) :
    group_similar_pois ratio [] = [] := rfl

theorem group_similar_keys_sublist (ratio : String → String → ℕ) :
    ∀ (n : ℕ) (gs : OptGroups), gs.length ≤ n →
      List.Sublist ((group_similar_pois ratio gs).map Prod.fst)
        (gs.map Prod.fst) := by
  intro n
  induction n with
  | zero =>
      intro gs h0
      have hgs : gs = [] := List.length_eq_zero.mp (Nat.le_zero.mp h0)
      subst hgs
      simp [group_similar_nil]
  | succ n ih =>
      intro gs h
      cases gs with
      | nil => simp [group_similar_nil]
      | cons p rest =>
          obtain ⟨nm, g⟩ := p
          rw [group_similar_cons]
          simp only [List.map_cons]
          refine List.Sublist.cons₂ _ ?_
          have hlen : (rest.filter fun p =>
              ¬ 85 < ratio (pyLower nm) (pyLower p.1)).length ≤ n := by
            have hfl := List.length_filter_le
              (fun p => decide (¬ 85 < ratio (pyLower nm) (pyLower p.1))) rest
            simp only [List.length_cons] at h
            omega
          exact (ih _ hlen).trans ((List.filter_sublist rest).map Prod.fst)

theorem perm_append_swap_left {α : Type} (x A B C : List α)
    (h : List.Perm (A ++ B) C) : List.Perm (A ++ (x ++ B)) (x ++ C) := by
  have e1 : A ++ (x ++ B) = (A ++ x) ++ B := (List.append_assoc A x B).symm
  rw [e1]
  have s1 : List.Perm ((A ++ x) ++ B) ((x ++ A) ++ B) :=
    List.Perm.append_right B List.perm_append_comm
  rw [List.append_assoc x A B] at s1
  exact s1.trans (List.Perm.append_left x h)

theorem sim_split_perm (ratio : String → String → ℕ) (nm : String)
    (rest : OptGroups) :
    List.Perm
      ((((rest.filter fun p => 85 < ratio (pyLower nm) (pyLower p.1)).map
          Prod.snd).flatten) ++
       (((rest.filter fun p => ¬ 85 < ratio (pyLower nm) (pyLower p.1)).map
          Prod.snd).flatten))
      ((rest.map Prod.snd).flatten) := by
  induction rest with
  | nil => simp
  | cons p rs ih =>
      by_cases h : 85 < ratio (pyLower nm) (pyLower p.1)
      · rw [List.filter_cons_of_pos (by simpa using h),
          List.filter_cons_of_neg (by simpa using h)]
        simp only [List.map_cons, List.flatten_cons, List.append_assoc]
        exact List.Perm.append_left p.2 ih
      · rw [List.filter_cons_of_neg (by simpa using h),
          List.filter_cons_of_pos (by simpa using h)]
        simp only [List.map_cons, List.flatten_cons]
        exact perm_append_swap_left p.2 _ _ _ ih

theorem group_similar_flatten_perm (ratio : String → String → ℕ) :
    ∀ (n : ℕ) (gs : OptGroups), gs.length ≤ n →
      List.Perm (((group_similar_pois ratio gs).map Prod.snd).flatten)
        ((gs.map Prod.snd).flatten) := by
  intro n
  induction n with
  | zero =>
      intro gs h0
      have hgs : gs = [] := List.length_eq_zero.mp (Nat.le_zero.mp h0)
      subst hgs
      simp [group_similar_nil]
  | succ n ih =>
      intro gs h
      cases gs with
      | nil => simp [group_similar_nil]
      | cons p rest =>
          obtain ⟨nm, g⟩ := p
          rw [group_similar_cons]
          simp only [List.map_cons, List.flatten_cons, List.append_assoc]
          refine List.Perm.append_left g ?_
          have hlen : (rest.filter fun p =>
              ¬ 85 < ratio (pyLower nm) (pyLower p.1)).length ≤ n := by
            have hfl := List.length_filter_le
              (fun p => decide (¬ 85 < ratio (pyLower nm) (pyLower p.1))) rest
            simp only [List.length_cons] at h
            omega
          exact (List.Perm.append_left _ (ih _ hlen)).trans
            (sim_split_perm ratio nm rest)

/-- C8 (confirmed): `group_similar_pois` is a greedy single pass over POI
names in encounter order: the first name seeds a group that absorbs the
members of exactly those later names whose case-insensitive ratio to the
seed is strictly greater than 85 (so a pair with ratio at most 85 is never
merged directly); the absorbed names are removed before the pass
continues, so each input name lands in exactly one merged group, and the
output keys are a subsequence of the input names. -/
theorem fuzzy_merge_greedy (ratio : String → String → ℕ) (nm : String)
    (g : List PoiMember) (rest gs : OptGroups) :
    group_similar_pois ratio [] = [] ∧
    group_similar_pois ratio ((nm, g) :: rest) =
      (nm, g ++ ((rest.filter fun p =>
          85 < ratio (pyLower nm) (pyLower p.1)).map Prod.snd).flatten) ::
        group_similar_pois ratio
          (rest.filter fun p => ¬ 85 < ratio (pyLower nm) (pyLower p.1)) ∧
    List.Sublist ((group_similar_pois ratio gs).map Prod.fst)
      (gs.map Prod.fst) :=
  ⟨group_similar_nil ratio, group_similar_cons ratio nm g rest,
   group_similar_keys_sublist ratio gs.length gs (le_refl _)⟩

/-- C10 (confirmed): the keys of the merged mapping are a subset of the
input names, and the concatenation of all output groups is a permutation
of the concatenation of all input groups — every observation tuple is
preserved with its multiplicity, none lost or duplicated. -/
theorem merge_preserves_observations (ratio : String → String → ℕ)
    (gs : OptGroups) :
    (∀ k ∈ (group_similar_pois ratio gs).map Prod.fst, k ∈ gs.map Prod.fst) ∧
    List.Perm (((group_similar_pois ratio gs).map Prod.snd).flatten)
      ((gs.map Prod.snd).flatten) :=
  ⟨fun _ hk =>
    (group_similar_keys_sublist ratio gs.length gs (le_refl _)).subset hk,
   group_similar_flatten_perm ratio gs.length gs (le_refl _)⟩

theorem appendMember_forall (C : String → PoiMember → Prop) (nm : String)
    (m : PoiMember) :
    ∀ (gs : OptGroups), (∀ p ∈ gs, ∀ x ∈ p.2, C p.1 x) → C nm m →
    ∀ p ∈ appendMember gs nm m, ∀ x ∈ p.2, C p.1 x := by
  intro gs
  induction gs with
  | nil =>
      intro _ hm p hp x hx
      simp only [appendMember, List.mem_singleton] at hp
      subst hp
      simp only [List.mem_singleton] at hx
      subst hx
      exact hm
  | cons q rest ih =>
      obtain ⟨k, l⟩ := q
      intro hgs hm p hp x hx
      simp only [appendMember] at hp
      by_cases hk : k = nm
      · subst hk
        rw [if_pos rfl] at hp
        cases hp with
        | head =>
            cases List.mem_append.mp hx with
            | inl h1 => exact hgs (k, l) (List.mem_cons_self _ _) x h1
            | inr h2 =>
                have hxm : x = m := by simpa using h2
                subst hxm
                exact hm
        | tail _ hp' => exact hgs p (List.mem_cons_of_mem _ hp') x hx
      · rw [if_neg hk] at hp
        cases hp with
        | head => exact hgs (k, l) (List.mem_cons_self _ _) x hx
        | tail _ hp' =>
            exact ih (fun r hr => hgs r (List.mem_cons_of_mem _ hr)) hm p hp' x hx

theorem appendMember_keys (nm : String) (m : PoiMember) :
    ∀ gs : OptGroups,
      (appendMember gs nm m).map Prod.fst =
        if nm ∈ gs.map Prod.fst then gs.map Prod.fst
        else gs.map Prod.fst ++ [nm] := by
  intro gs
  induction gs with
  | nil => simp [appendMember]
  | cons q rest ih =>
      obtain ⟨k, l⟩ := q
      simp only [appendMember]
      by_cases hk : k = nm
      · subst hk
        rw [if_pos rfl]
        simp
      · rw [if_neg hk]
        simp only [List.map_cons, ih]
        by_cases hmem : nm ∈ rest.map Prod.fst
        · rw [if_pos hmem, if_pos (List.mem_cons_of_mem k hmem)]
        · rw [if_neg hmem, if_neg ?_]
          · simp
          · intro hc
            cases List.mem_cons.mp hc with
            | inl h1 => exact hk h1.symm
            | inr h2 => exact hmem h2

theorem appendMember_nonempty (nm : String) (m : PoiMember) :
    ∀ gs : OptGroups, (∀ p ∈ gs, p.2 ≠ []) →
      ∀ p ∈ appendMember gs nm m, p.2 ≠ [] := by
  intro gs
  induction gs with
  | nil =>
      intro _ p hp
      simp only [appendMember, List.mem_singleton] at hp
      subst hp
      simp
  | cons q rest ih =>
      obtain ⟨k, l⟩ := q
      intro hgs p hp
      simp only [appendMember] at hp
      by_cases hk : k = nm
      · rw [if_pos hk] at hp
        cases hp with
        | head => simp
        | tail _ hp' => exact hgs p (List.mem_cons_of_mem _ hp')
      · rw [if_neg hk] at hp
        cases hp with
        | head => exact hgs (k, l) (List.mem_cons_self _ _)
        | tail _ hp' => exact ih (fun r hr => hgs r (List.mem_cons_of_mem _ hr)) p hp'

theorem build_aux_forall (C : String → PoiMember → Prop) :
    ∀ (rows : List CsvRow) (acc : OptGroups),
      (∀ p ∈ acc, ∀ x ∈ p.2, C p.1 x) →
      (∀ row ∈ rows, row.poi_name ≠ "" → (pyLower row.side) = "right" →
        C row.poi_name ⟨row.poi_lat, row.poi_lon, row.bearing, row.distance,
          row.source_lat, row.source_lon⟩) →
      ∀ p ∈ build_poi_groups_aux acc rows, ∀ x ∈ p.2, C p.1 x := by
  intro rows
  induction rows with
  | nil => intro acc hacc _ p hp; exact hacc p hp
  | cons row rest ih =>
      intro acc hacc hrows
      simp only [build_poi_groups_aux]
      by_cases h1 : row.poi_name = ""
      · rw [if_pos h1]
        exact ih acc hacc (fun r hr => hrows r (List.mem_cons_of_mem _ hr))
      · rw [if_neg h1]
        by_cases h2 : (pyLower row.side) ≠ "right"
        · rw [if_pos h2]
          exact ih acc hacc (fun r hr => hrows r (List.mem_cons_of_mem _ hr))
        · rw [if_neg h2]
          exact ih _
            (appendMember_forall C row.poi_name _ acc hacc
              (hrows row (List.mem_cons_self _ _) h1 (not_not.mp h2)))
            (fun r hr => hrows r (List.mem_cons_of_mem _ hr))

theorem build_aux_keys_nodup :
    ∀ (rows : List CsvRow) (acc : OptGroups),
      (acc.map Prod.fst).Nodup →
      ((build_poi_groups_aux acc rows).map Prod.fst).Nodup := by
  intro rows
  induction rows with
  | nil => intro acc h; exact h
  | cons row rest ih =>
      intro acc hacc
      simp only [build_poi_groups_aux]
      by_cases h1 : row.poi_name = ""
      · rw [if_pos h1]; exact ih acc hacc
      · rw [if_neg h1]
        by_cases h2 : (pyLower row.side) ≠ "right"
        · rw [if_pos h2]; exact ih acc hacc
        · rw [if_neg h2]
          refine ih _ ?_
          rw [appendMember_keys]
          by_cases hmem : row.poi_name ∈ acc.map Prod.fst
          · rw [if_pos hmem]; exact hacc
          · rw [if_neg hmem]
            simp [List.nodup_append, hacc, hmem]

theorem build_aux_nonempty :
    ∀ (rows : List CsvRow) (acc : OptGroups),
      (∀ p ∈ acc, p.2 ≠ []) →
      ∀ p ∈ build_poi_groups_aux acc rows, p.2 ≠ [] := by
  intro rows
  induction rows with
  | nil => intro acc h p hp; exact h p hp
  | cons row rest ih =>
      intro acc hacc
      simp only [build_poi_groups_aux]
      by_cases h1 : row.poi_name = ""
      · rw [if_pos h1]; exact ih acc hacc
      · rw [if_neg h1]
        by_cases h2 : (pyLower row.side) ≠ "right"
        · rw [if_pos h2]; exact ih acc hacc
        · rw [if_neg h2]
          exact ih _ (appendMember_nonempty row.poi_name _ acc hacc)

theorem find_min_bearing_nonempty (g : List PoiMember) (hne : g ≠ []) :
    ∃ mb, find_min_bearing g = some mb := by
  cases g with
  | nil => exact absurd rfl hne
  | cons a b => exact ⟨_, rfl⟩

theorem optimize_group_ok (nm : String) (g : List PoiMember) (mb : PoiMember)
    (hmb : find_min_bearing g = some mb) :
    optimize_group nm g = Except.ok (optimized_rows nm g mb) := by
  simp only [optimize_group, hmb, optimized_rows]

theorem optimized_rows_name (nm : String) (g : List PoiMember) (mb : PoiMember) :
    ∀ r ∈ optimized_rows nm g mb, r.poi_name = nm := by
  intro r hr
  simp only [optimized_rows, List.mem_map] at hr
  obtain ⟨m, -, rfl⟩ := hr
  rfl

theorem optimized_rows_opt (nm : String) (g : List PoiMember) (mb : PoiMember) :
    ∀ r ∈ optimized_rows nm g mb,
      (r.optimal_lat, r.optimal_lon) =
        calculate_new_position mb.poi_lat mb.poi_lon mb.bearing
          (calculate_average_distance (g.map fun x => x.distance)) := by
  intro r hr
  simp only [optimized_rows, List.mem_map] at hr
  obtain ⟨m, -, rfl⟩ := hr
  rfl

theorem optimized_rows_length (nm : String) (g : List PoiMember) (mb : PoiMember) :
    (optimized_rows nm g mb).length = g.length := by
  simp [optimized_rows]

theorem optimized_rows_member (nm : String) (g : List PoiMember) (mb : PoiMember) :
    ∀ m ∈ g, ∃ r ∈ optimized_rows nm g mb,
      r.source_lat = m.source_lat ∧ r.source_lon = m.source_lon ∧
      r.poi_name = nm := by
  intro m hm
  exact ⟨_, List.mem_map_of_mem _ hm, rfl, rfl, rfl⟩

theorem optimize_groups_spec :
    ∀ (G : OptGroups), (∀ p ∈ G, p.2 ≠ []) → (G.map Prod.fst).Nodup →
    ∃ out, optimize_groups G = Except.ok out ∧
      (∀ r ∈ out, r.poi_name ∈ G.map Prod.fst) ∧
      ∀ nm g, (nm, g) ∈ G →
        ∃ mb, find_min_bearing g = some mb ∧
          (out.filter fun r => r.poi_name = nm).length = g.length ∧
          (∀ r ∈ out.filter fun r => r.poi_name = nm,
            (r.optimal_lat, r.optimal_lon) =
              calculate_new_position mb.poi_lat mb.poi_lon mb.bearing
                (calculate_average_distance (g.map fun x => x.distance))) ∧
          (∀ m ∈ g, ∃ r ∈ out, r.source_lat = m.source_lat ∧
            r.source_lon = m.source_lon ∧ r.poi_name = nm) := by
  intro G
  induction G with
  | nil =>
      intro _ _
      exact ⟨[], rfl, by simp, by simp⟩
  | cons q rest ih =>
      obtain ⟨k, l⟩ := q
      intro hne hnd
      have hl : l ≠ [] := hne (k, l) (List.mem_cons_self _ _)
      obtain ⟨mb0, hmb0⟩ := find_min_bearing_nonempty l hl
      have hog := optimize_group_ok k l mb0 hmb0
      have hne' : ∀ p ∈ rest, p.2 ≠ [] :=
        fun p hp => hne p (List.mem_cons_of_mem _ hp)
      have hnd' : (rest.map Prod.fst).Nodup := by
        simp only [List.map_cons, List.nodup_cons] at hnd
        exact hnd.2
      have hknot : k ∉ rest.map Prod.fst := by
        simp only [List.map_cons, List.nodup_cons] at hnd
        exact hnd.1
      obtain ⟨out_r, hout_r, hnames_r, hspec_r⟩ := ih hne' hnd'
      refine ⟨optimized_rows k l mb0 ++ out_r, ?_, ?_, ?_⟩
      · simp only [optimize_groups, hog, hout_r, Bind.bind, Except.bind]
      · intro r hr
        cases List.mem_append.mp hr with
        | inl h1 =>
            rw [optimized_rows_name k l mb0 r h1]
            simp
        | inr h2 =>
            have := hnames_r r h2
            simp only [List.map_cons]
            exact List.mem_cons_of_mem _ this
      · intro nm g hmem
        cases List.mem_cons.mp hmem with
        | inl heq =>
            injection heq with hnm hg
            subst hnm
            subst hg
            have hfk : (optimized_rows nm g mb0).filter
                (fun r => r.poi_name = nm) = optimized_rows nm g mb0 := by
              rw [List.filter_eq_self]
              intro r hr
              simp [optimized_rows_name nm g mb0 r hr]
            have hfo : out_r.filter (fun r => r.poi_name = nm) = [] := by
              rw [List.filter_eq_nil_iff]
              intro r hr
              intro hc
              have hmem2 := hnames_r r hr
              rw [(by simpa using hc : r.poi_name = nm)] at hmem2
              exact hknot hmem2
            refine ⟨mb0, hmb0, ?_, ?_, ?_⟩
            · rw [List.filter_append, hfk, hfo, List.append_nil]
              exact optimized_rows_length nm g mb0
            · intro r hr
              rw [List.filter_append, hfk, hfo, List.append_nil] at hr
              exact optimized_rows_opt nm g mb0 r hr
            · intro m hm
              obtain ⟨r, hr, hp⟩ := optimized_rows_member nm g mb0 m hm
              exact ⟨r, List.mem_append_left _ hr, hp⟩
        | inr hmem' =>
            obtain ⟨mb, hmb, hlen, hpos, hmm⟩ := hspec_r nm g hmem'
            have hnmk : ¬ k = nm := by
              intro hc
              subst hc
              exact hknot (by simpa using List.mem_map_of_mem Prod.fst hmem')
            have hfk : (optimized_rows k l mb0).filter
                (fun r => r.poi_name = nm) = [] := by
              rw [List.filter_eq_nil_iff]
              intro r hr hc
              exact hnmk (by
                rw [← optimized_rows_name k l mb0 r hr]
                simpa using hc)
            refine ⟨mb, hmb, ?_, ?_, ?_⟩
            · rw [List.filter_append, hfk, List.nil_append]
              exact hlen
            · intro r hr
              rw [List.filter_append, hfk, List.nil_append] at hr
              exact hpos r hr
            · intro m hm
              obtain ⟨r, hr, hp⟩ := hmm m hm
              exact ⟨r, List.mem_append_right _ hr, hp⟩

/-- C7 (confirmed): every group produced by the upstream filter is
non-empty and built exactly from the input rows whose non-empty name
matches and whose lower-cased side is "right"; `optimize_poi_positions`
then succeeds, computing per group one position — projected with
`calculate_new_position` from the minimum-bearing member over the mean of
all member distances — and emits one output row per member observation,
all sharing that position, so the row count per POI name equals the
group's member count. -/
theorem bearing_reconstruction_per_group (csvRows : List CsvRow) (nm : String)
    (g : List PoiMember) (hmem : (nm, g) ∈ build_poi_groups csvRows) :
    g ≠ [] ∧
    (∀ m ∈ g, ∃ row ∈ csvRows, row.poi_name = nm ∧ nm ≠ "" ∧
      (pyLower row.side) = "right" ∧
      m = ⟨row.poi_lat, row.poi_lon, row.bearing, row.distance,
        row.source_lat, row.source_lon⟩) ∧
    ∃ out mb, optimize_poi_positions csvRows = Except.ok out ∧
      find_min_bearing g = some mb ∧
      (out.filter fun r => r.poi_name = nm).length = g.length ∧
      (∀ r ∈ out.filter fun r => r.poi_name = nm,
        (r.optimal_lat, r.optimal_lon) =
          calculate_new_position mb.poi_lat mb.poi_lon mb.bearing
            (calculate_average_distance (g.map fun x => x.distance))) ∧
      (∀ m ∈ g, ∃ r ∈ out, r.source_lat = m.source_lat ∧
        r.source_lon = m.source_lon ∧ r.poi_name = nm) := by
  have hne := build_aux_nonempty csvRows [] (by simp)
  have hnd := build_aux_keys_nodup csvRows [] (by simp)
  have hprov := build_aux_forall
    (fun key mm => ∃ row ∈ csvRows, row.poi_name = key ∧ key ≠ "" ∧
      (pyLower row.side) = "right" ∧
      mm = ⟨row.poi_lat, row.poi_lon, row.bearing, row.distance,
        row.source_lat, row.source_lon⟩)
    csvRows [] (by simp)
    (fun row hrow h1 h2 => ⟨row, hrow, rfl, h1, h2, rfl⟩)
  obtain ⟨out, hout, -, hspec⟩ :=
    optimize_groups_spec (build_poi_groups csvRows) hne hnd
  obtain ⟨mb, hmb, hlen, hpos, hmm⟩ := hspec nm g hmem
  refine ⟨hne (nm, g) hmem, ?_, out, mb, hout, hmb, hlen, hpos, hmm⟩
  intro m hm
  exact hprov (nm, g) hmem m hm

/-- Witness for C7: one "Right" row for POI "A"; the optimizer succeeds
and emits exactly one row for "A". -/
theorem bearing_reconstruction_per_group_witness :
    (("A", [(⟨1, 1, 10, 5, 0, 0⟩ : PoiMember)]) ∈
      build_poi_groups [⟨"A", 0, 0, 1, 1, 5, 10, "Right"⟩]) ∧
    ([(⟨1, 1, 10, 5, 0, 0⟩ : PoiMember)] : List PoiMember) ≠ [] ∧
    ∃ out mb,
      optimize_poi_positions [⟨"A", 0, 0, 1, 1, 5, 10, "Right"⟩] =
        Except.ok out ∧
      find_min_bearing [(⟨1, 1, 10, 5, 0, 0⟩ : PoiMember)] = some mb ∧
      (out.filter fun r => r.poi_name = "A").length =
        ([(⟨1, 1, 10, 5, 0, 0⟩ : PoiMember)] : List PoiMember).length := by
  have hb : build_poi_groups [⟨"A", 0, 0, 1, 1, 5, 10, "Right"⟩] =
      [("A", [(⟨1, 1, 10, 5, 0, 0⟩ : PoiMember)])] := rfl
  have hmem : ("A", [(⟨1, 1, 10, 5, 0, 0⟩ : PoiMember)]) ∈
      build_poi_groups [⟨"A", 0, 0, 1, 1, 5, 10, "Right"⟩] := by
    rw [hb]
    exact List.mem_singleton.mpr rfl
  obtain ⟨hne, -, out, mb, hout, hmb, hlen, -, -⟩ :=
    bearing_reconstruction_per_group _ "A" _ hmem
  exact ⟨hmem, hne, out, mb, hout, hmb, hlen⟩
